import Mathlib

set_option maxRecDepth 40000

/-!
Verification development for the SRE on-call schedule generator
(`sre_oncall_scheduler_ui.py`, class `OnCallScheduler`).

The Python engine is shallowly embedded as executable Lean functions:

* dates are day numbers (`Int`, days since 1970-01-01, a Thursday), with
  `days_from_civil` translating the proleptic Gregorian calendar used by
  Python's `datetime.date`;
* the scheduler's mutable attributes (`self.schedule`, `self.shift_counts`,
  `self.monthly_weekly_assignments`, the rotation queues, ...) become the
  fields of `GenState`, and each method becomes a function
  `GenState → ... → GenState`;
* the Python strings `"user (DOUBLE)"`, `"user (EMERGENCY)"`,
  `"user (EMERGENCY-DOUBLE)"` written into schedule cells are modelled as a
  structured pair of the bare user name and a `Tag`; the bare name is what
  the validator recovers with `user.split(' (')[0]`;
* calls into Python's `random` module (`random.shuffle`, `random.choice`)
  are modelled by oracle parameters `shuffle : Nat → List String → List String`
  and `choose : Nat → List String → Nat`, consumed at an increasing index
  `rng` carried in the state, so that every realizable sequence of random
  draws corresponds to an instantiation of the oracles.
-/

namespace OnCall

/-! ## Calendar model (Python `datetime.date` / `calendar.monthrange`) -/

/-- Gregorian leap-year rule, as in Python's `calendar.isleap`. -/
def is_leap (y : Int) : Bool :=
  (y.emod 4 == 0 && y.emod 100 != 0) || y.emod 400 == 0

/-- Number of days in a month, as returned by `calendar.monthrange(y, m)[1]`. -/
def daysInMonth (y m : Int) : Int :=
  if m == 2 then (if is_leap y then 29 else 28)
  else if m == 4 || m == 6 || m == 9 || m == 11 then 30 else 31

/-- Day number of the Gregorian date y-m-d, counted from 1970-01-01 = day 0.
This is the standard civil-from-days correspondence; for the years the
scheduler is used on (y ≥ 1) every division below has nonnegative operands. -/
def days_from_civil (y m d : Int) : Int :=
  let yy := if m ≤ 2 then y - 1 else y
  let era := (if 0 ≤ yy then yy else yy - 399) / 400
  let yoe := yy - era * 400
  let mp := (m + 9).emod 12
  let doy := (153 * mp + 2) / 5 + d - 1
  let doe := yoe * 365 + yoe / 4 - yoe / 100 + doy
  era * 146097 + doe - 719468

/-- `date.weekday()`: Monday = 0 ... Sunday = 6.  Day 0 (1970-01-01) is a
Thursday, hence the offset 3. -/
def weekdayM (d : Int) : Int := (d + 3).emod 7

/-- `get_month_weeks(year, month)`: the Monday day-numbers of all Mon-Sun weeks
touching the month.  The Python method returns (monday, sunday) pairs produced
by a while loop from the first Monday to the last Sunday; a week is determined
by its Monday, so we return the list of Mondays. -/
def get_month_weeks (y m : Int) : List Int :=
  let first := days_from_civil y m 1
  let lastD := days_from_civil y m (daysInMonth y m)
  let firstMonday := first - weekdayM first
  let lastSunday := lastD + (6 - weekdayM lastD)
  let n := ((lastSunday + 1 - firstMonday) / 7).toNat
  (List.range n).map fun i => firstMonday + 7 * (i : Int)

/-! ## Data model -/

inductive Tier where
  | tier2 | tier3 | upgrade
deriving DecidableEq

inductive Slot where
  | morning | evening | full
deriving DecidableEq

/-- The degradation marker appended to the user string in the Python schedule:
`none` for a plain name, otherwise the `" (DOUBLE)"`, `" (EMERGENCY)"` or
`" (EMERGENCY-DOUBLE)"` suffix. -/
inductive Tag where
  | none | double | emergency | emergencyDouble
deriving DecidableEq

/-- One cell of the generated schedule: `schedule[date][tier][slot] = user+tag`. -/
structure Entry where
  date : Int
  tier : Tier
  slot : Slot
  user : String
  tag : Tag
deriving DecidableEq

/-- The reason string recorded in `self.fallback_assignments`. -/
inductive Reason where
  | crossTier | doubleShift | emergency | emergencyDouble
deriving DecidableEq

/-- One element of `self.fallback_assignments`. -/
structure FEvent where
  date : Int
  tier : Tier
  slot : Slot
  user : String
  reason : Reason
deriving DecidableEq

/-- The scheduler state during one `generate_schedule` run: the mutable
attributes of `OnCallScheduler` plus the local variables `schedule` and
`daily_assignments` of `generate_schedule`, plus the randomness oracles. -/
structure GenState where
  schedule : List Entry
  daily : Int → List String
  shiftCounts : String → Nat
  monthly : String → Nat
  cumulative : String → Nat
  upQueue : List String
  t3mQueue : List String
  t3eQueue : List String
  lastUp : Option String
  lastT3m : Option String
  lastT3e : Option String
  fallbackLog : List FEvent
  tier2 : List String
  tier3 : List String
  upgradeUsers : List String
  pto : String → List Int
  shuffle : Nat → List String → List String
  choose : Nat → List String → Nat
  rng : Nat

/-! ## Availability model -/

/-- `is_user_available`: true unless the date is in the user's PTO set. -/
def isAvailable (pto : String → List Int) (u : String) (d : Int) : Bool :=
  !((pto u).contains d)

/-- The 7 dates of the Monday-aligned week starting at day `ws`. -/
def weekDates (ws : Int) : List Int :=
  [ws, ws + 1, ws + 2, ws + 3, ws + 4, ws + 5, ws + 6]

/-- `is_user_available_for_week`: available on all 7 days of the week and not
already assigned to another shift on any of them. -/
def isAvailableForWeek (pto : String → List Int) (daily : Int → List String)
    (u : String) (ws : Int) : Bool :=
  (weekDates ws).all fun d => isAvailable pto u d && !((daily d).contains u)

/-! ## Small state helpers -/

/-- Add `k` to a per-user counter, as `counts[u] += k` on a defaultdict. -/
def bump (f : String → Nat) (u : String) (k : Nat) : String → Nat :=
  fun v => if v = u then f v + k else f v

/-- `daily_assignments[date].add(user)`. -/
def addDaily (daily : Int → List String) (d : Int) (u : String) : Int → List String :=
  fun x => if x = d then u :: daily x else daily x

/-- `random.choice(l)` for nonempty `l`, driven by an index oracle. -/
def choicePick (f : List String → Nat) (l : List String) : String :=
  l.getD (f l % l.length) ""

/-! ## Weekly shift assigner (`assign_weekly_shift_with_rotation`) -/

/-- The per-candidate eligibility filter applied in both scanning passes of
`assign_weekly_shift_with_rotation`: not last week's user, under the
2-per-month weekly cap, and available (and unassigned) for the whole week. -/
def eligW (st : GenState) (ws : Int) (last : Option String) (u : String) : Bool :=
  (last.all fun l => !(u == l)) &&
    decide (st.monthly u < 2) && isAvailableForWeek st.pto st.daily u ws

/-- `users_with_zero_shifts`: roster users with no weekly turn yet this month. -/
def zerosOf (monthly : String → Nat) (allU : List String) : List String :=
  allU.filter fun u => monthly u == 0

/-- `available_by_priority[k]` for a scanned list `l` (queue order in the
first pass, roster order in the direct scan): the eligible members of `l`
whose weekly-shift count is `k`. -/
def wprio (st : GenState) (ws : Int) (last : Option String) (k : Nat)
    (l : List String) : List String :=
  l.filter fun u => eligW st ws last u && (st.monthly u == k)

/-- The fairness-floor test of the queue pass: `not users_with_zero_shifts or
all(u in rotation_queue and not is_user_available_for_week(u, ...) for u in
users_with_zero_shifts)`. -/
def floorQueueOk (st : GenState) (ws : Int) (queue allU : List String) : Bool :=
  (zerosOf st.monthly allU).isEmpty ||
    (zerosOf st.monthly allU).all
      (fun z => queue.contains z && !isAvailableForWeek st.pto st.daily z ws)

/-- The fairness-floor test of the direct scan: `not users_with_zero or
all(not is_user_available_for_week(u, ...) for u in users_with_zero)`. -/
def floorScanOk (st : GenState) (ws : Int) (allU : List String) : Bool :=
  (zerosOf st.monthly allU).isEmpty ||
    (zerosOf st.monthly allU).all (fun z => !isAvailableForWeek st.pto st.daily z ws)

/-- The first, rotation-queue pass of `assign_weekly_shift_with_rotation`:
categorize queue members by weekly-shift count into priority lists 0 and 1
(in queue order), take the first priority-0 candidate, else the first
priority-1 candidate provided the fairness floor allows a second turn. -/
def pass1Select (st : GenState) (ws : Int) (queue : List String)
    (last : Option String) (allU : List String) : Option String :=
  match wprio st ws last 0 queue with
  | u :: _ => some u
  | [] =>
    match wprio st ws last 1 queue with
    | v :: _ => if floorQueueOk st ws queue allU then some v else Option.none
    | [] => Option.none

/-- `assign_weekly_shift_with_rotation(shift_type, week_start, daily_assignments,
rotation_queue, last_user, all_users)`.  Returns the selected user (if any),
the rotation queue after the call (the Python code mutates the list in place),
and the advanced randomness index.  Control flow mirrors the Python method:
queue pass (with refill-and-reshuffle when the queue empties), then a direct
scan of the whole roster with `random.choice` at the chosen priority level
(returning `None` without reaching the last resort when the fairness floor
blocks a second turn), then the back-to-back last resort reusing `last_user`. -/
def assign_weekly_shift_with_rotation (st : GenState) (ws : Int) (queue : List String)
    (last : Option String) (allU : List String) : Option String × List String × Nat :=
  match pass1Select st ws queue last allU with
  | some u =>
    let q := queue.erase u
    if q.isEmpty then (some u, st.shuffle st.rng (allU.erase u), st.rng + 1)
    else (some u, q, st.rng)
  | Option.none =>
    match wprio st ws last 0 allU with
    | _ :: _ =>
      let u := choicePick (st.choose st.rng) (wprio st ws last 0 allU)
      (some u, queue.erase u, st.rng + 1)
    | [] =>
      match wprio st ws last 1 allU with
      | _ :: _ =>
        if floorScanOk st ws allU then
          let u := choicePick (st.choose st.rng) (wprio st ws last 1 allU)
          (some u, queue.erase u, st.rng + 1)
        else
          (Option.none, queue, st.rng)
      | [] =>
        match last with
        | some lu =>
          if allU.contains lu && isAvailableForWeek st.pto st.daily lu ws then
            (some lu, queue, st.rng)
          else (Option.none, queue, st.rng)
        | Option.none => (Option.none, queue, st.rng)

/-! ## Fallback/escalation resolver -/

/-- `loadBalanceKey(user)`, the spec's sort key: `cumulativeCount + monthCount`.
The Daily Assigner sorts by exactly this sum (`self.cumulative_shift_counts[u]
+ self.shift_counts[u]`). -/
def loadBalanceKey (st : GenState) (u : String) : Nat :=
  st.cumulative u + st.shiftCounts u

/-- Stable ascending sort by a numeric key, modelling Python's stable
`list.sort(key=...)` / `sorted(..., key=...)`. -/
def sortByKey (key : String → Nat) (l : List String) : List String :=
  List.insertionSort (fun a b => key a ≤ key b) l

/-- The candidate pool of the cross-tier rung of `attempt_fallback_coverage`:
`set(self.tier2_users + self.tier3_users)` minus the tier's own roster
(`users`).  The Python set has arbitrary iteration order; we fix the
first-occurrence order of `tier2 ++ tier3`, which is one realization of it. -/
def crossTierCandidates (st : GenState) (users : List String) : List String :=
  ((st.tier2 ++ st.tier3).dedup).filter fun u => !(users.contains u)

/-- The scan of the cross-tier rung: candidates sorted ascending by the
current-month `self.shift_counts`, first user available on the date and not
already assigned that day. -/
def crossTierPick (st : GenState) (date : Int) (users : List String) : Option String :=
  (sortByKey st.shiftCounts (crossTierCandidates st users)).find? fun u =>
    isAvailable st.pto u date && !((st.daily date).contains u)

/-- `attempt_fallback_coverage(tier, date, shift, users, schedule,
daily_assignments, already_assigned)`: cross-tier borrowing for non-upgrade
tiers (untagged, logged as "cross-tier coverage"), else a `DOUBLE`-tagged
repeat of the already assigned user (skipped when `already_assigned` is
falsy).  The `DOUBLE` path does not touch `daily_assignments`, as in the
source. -/
def attempt_fallback_coverage (st : GenState) (tier : Tier) (date : Int)
    (shift : Slot) (users : List String) (already : String) : GenState :=
  let doubleStep : GenState :=
    if already == "" then st
    else
      { st with
        schedule := st.schedule ++ [⟨date, tier, shift, already, Tag.double⟩],
        shiftCounts := bump st.shiftCounts already 1,
        fallbackLog := st.fallbackLog ++ [⟨date, tier, shift, already, Reason.doubleShift⟩] }
  if tier = Tier.upgrade then doubleStep
  else
    match crossTierPick st date users with
    | some u =>
      { st with
        schedule := st.schedule ++ [⟨date, tier, shift, u, Tag.none⟩],
        daily := addDaily st.daily date u,
        shiftCounts := bump st.shiftCounts u 1,
        fallbackLog := st.fallbackLog ++ [⟨date, tier, shift, u, Reason.crossTier⟩] }
    | Option.none => doubleStep

/-- The tier-appropriate roster used by `attempt_emergency_coverage`:
upgrade roster for upgrade shifts, `set(tier2 + tier3)` otherwise. -/
def emergencyPool (st : GenState) (tier : Tier) : List String :=
  if tier = Tier.upgrade then st.upgradeUsers.dedup else (st.tier2 ++ st.tier3).dedup

/-- One slot of the emergency loop: first user of the (pre-computed) sorted
pool not already assigned that day, tagged `EMERGENCY`; failing that, the
lowest-count user regardless of same-day conflict, tagged `EMERGENCY-DOUBLE`
(without updating `daily_assignments`). -/
def emergencyStep (sortedU : List String) (tier : Tier) (date : Int)
    (s : GenState) (sh : Slot) : GenState :=
  match sortedU.find? (fun u => !((s.daily date).contains u)) with
  | some u =>
    { s with
      schedule := s.schedule ++ [⟨date, tier, sh, u, Tag.emergency⟩],
      daily := addDaily s.daily date u,
      shiftCounts := bump s.shiftCounts u 1,
      fallbackLog := s.fallbackLog ++ [⟨date, tier, sh, u, Reason.emergency⟩] }
  | Option.none =>
    match sortedU with
    | u :: _ =>
      { s with
        schedule := s.schedule ++ [⟨date, tier, sh, u, Tag.emergencyDouble⟩],
        shiftCounts := bump s.shiftCounts u 1,
        fallbackLog := s.fallbackLog ++ [⟨date, tier, sh, u, Reason.emergencyDouble⟩] }
    | [] => s

/-- `attempt_emergency_coverage(tier, date, users, schedule, daily_assignments)`:
run `emergencyStep` for each slot to fill.  The sorted pool is computed once,
before the slot loop, exactly as in the source; its PTO set is never
consulted. -/
def attempt_emergency_coverage (st : GenState) (tier : Tier) (date : Int)
    (_users : List String) : GenState :=
  let sortedU := sortByKey st.shiftCounts (emergencyPool st tier)
  let shiftsToFill := if tier ≠ Tier.upgrade then [Slot.morning, Slot.evening] else [Slot.full]
  shiftsToFill.foldl (emergencyStep sortedU tier date) st

/-! ## Daily shift assigner -/

/-- `assign_daily_shifts_with_fairness(tier, date, users, schedule,
daily_assignments)`: with ≥ 2 eligible users, stable-sort them ascending by
`cumulative_shift_counts[u] + shift_counts[u]` and assign the two lowest to
morning and evening; with exactly 1, assign morning and escalate the evening
slot to `attempt_fallback_coverage`; with 0, escalate both slots to
`attempt_emergency_coverage`. -/
def assign_daily_shifts_with_fairness (st : GenState) (tier : Tier) (date : Int)
    (users : List String) : GenState :=
  let avail := users.filter fun u =>
    isAvailable st.pto u date && !((st.daily date).contains u)
  if 2 ≤ avail.length then
    let sorted := sortByKey (fun u => st.cumulative u + st.shiftCounts u) avail
    let m := sorted.getD 0 ""
    let e := sorted.getD 1 ""
    { st with
      schedule := st.schedule ++
        [⟨date, tier, Slot.morning, m, Tag.none⟩, ⟨date, tier, Slot.evening, e, Tag.none⟩],
      daily := addDaily (addDaily st.daily date m) date e,
      shiftCounts := bump (bump st.shiftCounts m 1) e 1 }
  else
    match avail with
    | [u] =>
      let st1 :=
        { st with
          schedule := st.schedule ++ [⟨date, tier, Slot.morning, u, Tag.none⟩],
          daily := addDaily st.daily date u,
          shiftCounts := bump st.shiftCounts u 1 }
      attempt_fallback_coverage st1 tier date Slot.evening users u
    | _ => attempt_emergency_coverage st tier date users

/-! ## One week of `generate_schedule` -/

/-- Write one weekly assignment into the schedule: 7 untagged entries (one per
day of the week), add the user to `daily_assignments` on each day, credit 7
shifts and one weekly turn. -/
def writeWeek (st : GenState) (ws : Int) (tier : Tier) (slot : Slot) (u : String) : GenState :=
  { st with
    schedule := st.schedule ++ ((weekDates ws).map fun d => ⟨d, tier, slot, u, Tag.none⟩),
    daily := fun d => if (weekDates ws).contains d then u :: st.daily d else st.daily d,
    shiftCounts := bump st.shiftCounts u 7,
    monthly := bump st.monthly u 1 }

/-- The upgrade-shift call of the week loop. -/
def weekUpgradePick (st : GenState) (ws : Int) : Option String × List String × Nat :=
  assign_weekly_shift_with_rotation st ws st.upQueue st.lastUp st.upgradeUsers

/-- State after the upgrade-shift step of the week loop. -/
def stAfterUpgrade (st : GenState) (ws : Int) : GenState :=
  let r := weekUpgradePick st ws
  let st1 := { st with upQueue := r.2.1, rng := r.2.2 }
  match r.1 with
  | some u => { writeWeek st1 ws Tier.upgrade Slot.full u with lastUp := some u }
  | Option.none => st1

/-- The tier3-morning call of the week loop (after the upgrade step). -/
def weekT3mPick (st : GenState) (ws : Int) : Option String × List String × Nat :=
  let s := stAfterUpgrade st ws
  assign_weekly_shift_with_rotation s ws s.t3mQueue s.lastT3m s.tier3

/-- State after the tier3-morning step of the week loop. -/
def stAfterT3m (st : GenState) (ws : Int) : GenState :=
  let s := stAfterUpgrade st ws
  let r := weekT3mPick st ws
  let st1 := { s with t3mQueue := r.2.1, rng := r.2.2 }
  match r.1 with
  | some u => { writeWeek st1 ws Tier.tier3 Slot.morning u with lastT3m := some u }
  | Option.none => st1

/-- The tier3-evening call of the week loop (after the tier3-morning step). -/
def weekT3ePick (st : GenState) (ws : Int) : Option String × List String × Nat :=
  let s := stAfterT3m st ws
  assign_weekly_shift_with_rotation s ws s.t3eQueue s.lastT3e s.tier3

/-- State after the tier3-evening step of the week loop. -/
def stAfterT3e (st : GenState) (ws : Int) : GenState :=
  let s := stAfterT3m st ws
  let r := weekT3ePick st ws
  let st1 := { s with t3eQueue := r.2.1, rng := r.2.2 }
  match r.1 with
  | some u => { writeWeek st1 ws Tier.tier3 Slot.evening u with lastT3e := some u }
  | Option.none => st1

/-- The body of the week loop of `generate_schedule`: the three weekly
assignments followed by the tier2 daily assignments for the 7 days of the
week. -/
def generateWeek (st : GenState) (ws : Int) : GenState :=
  (weekDates ws).foldl
    (fun s d => assign_daily_shifts_with_fairness s Tier.tier2 d s.tier2)
    (stAfterT3e st ws)

/-! ## Whole-month generation -/

/-- The scheduler state at the top of `generate_schedule`: empty schedule and
`daily_assignments`, month counters reset, the three rotation queues refilled
from the rosters and shuffled, and the continuation state (`last_*` users)
and cumulative counts carried in. -/
def initState (tier2 tier3 upg : List String) (pto : String → List Int)
    (cumulative : String → Nat) (lastUp lastT3m lastT3e : Option String)
    (shuffle : Nat → List String → List String) (choose : Nat → List String → Nat) :
    GenState :=
  { schedule := []
    daily := fun _ => []
    shiftCounts := fun _ => 0
    monthly := fun _ => 0
    cumulative := cumulative
    upQueue := shuffle 0 upg
    t3mQueue := shuffle 1 tier3
    t3eQueue := shuffle 2 tier3
    lastUp := lastUp
    lastT3m := lastT3m
    lastT3e := lastT3e
    fallbackLog := []
    tier2 := tier2
    tier3 := tier3
    upgradeUsers := upg
    pto := pto
    shuffle := shuffle
    choose := choose
    rng := 3 }

/-- `generate_schedule(year, month)`: run the week loop over all weeks of the
month.  (The trailing validation, report printing and cumulative-history
persistence do not change the schedule and are modelled separately.) -/
def generate_schedule (tier2 tier3 upg : List String) (pto : String → List Int)
    (cumulative : String → Nat) (lastUp lastT3m lastT3e : Option String)
    (shuffle : Nat → List String → List String) (choose : Nat → List String → Nat)
    (year month : Int) : GenState :=
  (get_month_weeks year month).foldl generateWeek
    (initState tier2 tier3 upg pto cumulative lastUp lastT3m lastT3e shuffle choose)

/-- Look up `schedule[date][tier][slot]`. -/
def lookupSlot (sched : List Entry) (d : Int) (t : Tier) (s : Slot) : Option Entry :=
  sched.find? fun e => decide (e.date = d) && decide (e.tier = t) && decide (e.slot = s)

/-! ## Validator: the PTO-violation section of `validate_schedule` -/

/-- One finding of the PTO-violation check: user (with tags stripped), date,
tier and slot of the offending assignment. -/
structure VEntry where
  user : String
  date : Int
  tier : Tier
  slot : Slot
deriving DecidableEq

/-- Append one assignment to the per-user grouping
(`user_assignments[base_user].append(...)` on an insertion-ordered dict). -/
def addAssign (acc : List (String × List (Int × Tier × Slot))) (u : String)
    (a : Int × Tier × Slot) : List (String × List (Int × Tier × Slot)) :=
  match acc with
  | [] => [(u, [a])]
  | (v, l) :: rest =>
    if v = u then (v, l ++ [a]) :: rest else (v, l) :: addAssign rest u a

/-- The assignment-collection loop at the top of `validate_schedule`: every
schedule cell, keyed by the tag-stripped base user
(`user.split(' (')[0]`, which in this embedding is the structured `user`
field). -/
def collect_user_assignments (sched : List Entry) :
    List (String × List (Int × Tier × Slot)) :=
  sched.foldl (fun acc e => addAssign acc e.user (e.date, e.tier, e.slot)) []

/-- Validation 1 of `validate_schedule`: for every collected assignment whose
base user is on PTO that date, emit a critical finding.  (The Python guard
`if user in self.pto_dates` only skips users with an empty PTO set, for whom
the inner filter finds nothing anyway.) -/
def pto_violation_findings (pto : String → List Int) (sched : List Entry) :
    List VEntry :=
  (collect_user_assignments sched).flatMap fun p =>
    (p.2.filter fun a => (pto p.1).contains a.1).map fun a => ⟨p.1, a.1, a.2.1, a.2.2⟩

/-! ## Concrete fixtures used by witnesses and counterexamples -/

/-- A realizable shuffle oracle: every `random.shuffle` leaves the list as
it is (the identity permutation). -/
def idShuffle : Nat → List String → List String := fun _ l => l

/-- A realizable choice oracle: every `random.choice` picks index 0. -/
def zeroChoose : Nat → List String → Nat := fun _ _ => 0

/-- No PTO at all. -/
def noPto : String → List Int := fun _ => []

/-- No carried-over cumulative history. -/
def zeroCum : String → Nat := fun _ => 0

/-- February 2021: a month of exactly 4 Monday-aligned weeks whose first day
(2021-02-01, day number 18659) is a Monday. -/
def feb2021 : Int := days_from_civil 2021 2 1

/-- A run with a single upgrade user and empty tier2/tier3 rosters over
February 2021: the back-to-back last resort reuses "A" every week after the
first. -/
def runSolo : GenState :=
  generate_schedule [] [] ["A"] noPto zeroCum Option.none Option.none Option.none
    idShuffle zeroChoose 2021 2

/-- PTO set blocking "A" on Wednesday 2021-02-03 (day 18661) only. -/
def ptoWed : String → List Int := fun u => if u = "A" then [18661] else []

/-- Same single-upgrade-user run, but "A" is on PTO one day of the first
week, so the weekly assigner returns no user for that week and the upgrade
slots of week 1 stay empty. -/
def runSoloPto : GenState :=
  generate_schedule [] [] ["A"] ptoWed zeroCum Option.none Option.none Option.none
    idShuffle zeroChoose 2021 2

/-- A state exercising the cross-tier fallback: candidates "Y" (month count 1,
cumulative 10) and "Z" (month count 2, cumulative 0), both available. -/
def fbState : GenState :=
  { schedule := []
    daily := fun _ => []
    shiftCounts := fun u => if u = "Y" then 1 else if u = "Z" then 2 else 0
    monthly := fun _ => 0
    cumulative := fun u => if u = "Y" then 10 else 0
    upQueue := []
    t3mQueue := []
    t3eQueue := []
    lastUp := Option.none
    lastT3m := Option.none
    lastT3e := Option.none
    fallbackLog := []
    tier2 := ["X"]
    tier3 := ["Y", "Z"]
    upgradeUsers := []
    pto := noPto
    shuffle := idShuffle
    choose := zeroChoose
    rng := 0 }

/-- A state in mid-run: users "A" and "B" each already hold one weekly turn. -/
def wState : GenState :=
  { fbState with
    shiftCounts := fun _ => 0
    monthly := fun u => if u = "A" then 1 else if u = "B" then 1 else 0
    cumulative := fun _ => 0
    tier2 := []
    tier3 := ["A", "B"]
    upgradeUsers := ["A", "B"] }

/-- A state where "A" already holds 2 weekly turns and was last week's user
for every weekly shift type. -/
def capState : GenState :=
  { wState with
    monthly := fun u => if u = "A" then 2 else 0
    t3mQueue := ["B"]
    t3eQueue := ["B"]
    upQueue := ["B"]
    lastUp := some "A"
    lastT3m := some "A"
    lastT3e := some "A" }

/-- A two-user tier2 state for the daily assigner: "B" and "C", no PTO. -/
def dState : GenState :=
  { fbState with
    shiftCounts := fun _ => 0
    cumulative := fun _ => 0
    tier2 := ["B", "C"]
    tier3 := [] }

/-- A state whose only tier2 user is on PTO on day 10. -/
def emgState : GenState :=
  { fbState with
    shiftCounts := fun _ => 0
    cumulative := fun _ => 0
    tier2 := ["A"]
    tier3 := []
    pto := fun u => if u = "A" then [10] else [] }

/-- A one-cell schedule whose single assignment carries an `EMERGENCY` tag
and falls on its user's PTO day. -/
def taggedSched : List Entry :=
  [⟨10, Tier.tier2, Slot.morning, "A", Tag.emergency⟩]

/-- PTO set blocking "A" on day 10. -/
def ptoA10 : String → List Int := fun u => if u = "A" then [10] else []

/-- Membership through the per-user grouping of assignments. -/
def pairMem (acc : List (String × List (Int × Tier × Slot))) (u : String)
    (a : Int × Tier × Slot) : Prop :=
  ∃ l, (u, l) ∈ acc ∧ a ∈ l

/-- An assignment that carries no degradation tag is to a user available
(not on PTO) on its date. -/
def OkEntry (pto : String → List Int) (e : Entry) : Prop :=
  e.tag = Tag.none → isAvailable pto e.user e.date = true

/-- The generation invariant behind C3: the PTO map is untouched and every
untagged schedule entry respects it. -/
def SchedOk (pto : String → List Int) (st : GenState) : Prop :=
  st.pto = pto ∧ ∀ e ∈ st.schedule, OkEntry pto e

/-! ## Lemmas: the weekly assigner's selection paths -/

theorem choicePick_mem (f : List String → Nat) (l : List String) (h : l ≠ []) :
    choicePick f l ∈ l := by
  have hlen : f l % l.length < l.length := Nat.mod_lt _ (List.length_pos.mpr h)
  rw [choicePick, List.getD_eq_getElem l "" hlen]
  exact List.getElem_mem hlen

theorem mem_wprio {st : GenState} {ws : Int} {last : Option String} {k : Nat}
    {l : List String} {u : String} (h : u ∈ wprio st ws last k l) :
    u ∈ l ∧ eligW st ws last u = true ∧ st.monthly u = k := by
  rw [wprio, List.mem_filter] at h
  obtain ⟨h1, h2⟩ := h
  simp only [Bool.and_eq_true, beq_iff_eq] at h2
  exact ⟨h1, h2.1, h2.2⟩

theorem wprio_mem {st : GenState} {ws : Int} {last : Option String} {k : Nat}
    {l : List String} {u : String} (h1 : u ∈ l) (h2 : eligW st ws last u = true)
    (h3 : st.monthly u = k) : u ∈ wprio st ws last k l := by
  rw [wprio, List.mem_filter]
  exact ⟨h1, by simp [h2, h3]⟩

theorem eligW_true {st : GenState} {ws : Int} {last : Option String} {u : String}
    (h : eligW st ws last u = true) :
    st.monthly u < 2 ∧ isAvailableForWeek st.pto st.daily u ws = true ∧
      ∀ l, last = some l → u ≠ l := by
  rw [eligW] at h
  simp only [Bool.and_eq_true, decide_eq_true_eq] at h
  refine ⟨h.1.2, h.2, ?_⟩
  intro l hl he
  rw [hl] at h
  simp only [Option.all_some, Bool.not_eq_true'] at h
  simp [he] at h

theorem eligW_of {st : GenState} {ws : Int} {last : Option String} {u : String}
    (h1 : st.monthly u < 2) (h2 : isAvailableForWeek st.pto st.daily u ws = true)
    (h3 : ∀ l, last = some l → u ≠ l) : eligW st ws last u = true := by
  rw [eligW]
  cases last with
  | none => simp [h1, h2]
  | some l => simp [h1, h2, h3 l rfl]

theorem mem_zerosOf {monthly : String → Nat} {allU : List String} {v : String} :
    v ∈ zerosOf monthly allU ↔ v ∈ allU ∧ monthly v = 0 := by
  simp [zerosOf]

theorem pass1Select_some {st : GenState} {ws : Int} {queue allU : List String}
    {last : Option String} {v : String}
    (h : pass1Select st ws queue last allU = some v) :
    v ∈ queue ∧ eligW st ws last v = true ∧
      (st.monthly v = 0 ∨
        (st.monthly v = 1 ∧ floorQueueOk st ws queue allU = true)) := by
  rw [pass1Select.eq_def] at h
  split at h
  next a t h0 =>
    injection h with h
    have ha : a ∈ wprio st ws last 0 queue := by rw [h0]; exact List.mem_cons_self a t
    rw [← h]
    exact ⟨(mem_wprio ha).1, (mem_wprio ha).2.1, Or.inl (mem_wprio ha).2.2⟩
  next h0 =>
    split at h
    next b t h1 =>
      split at h
      next hf =>
        injection h with h
        have hb : b ∈ wprio st ws last 1 queue := by rw [h1]; exact List.mem_cons_self b t
        rw [← h]
        exact ⟨(mem_wprio hb).1, (mem_wprio hb).2.1, Or.inr ⟨(mem_wprio hb).2.2, hf⟩⟩
      next => cases h
    next => cases h

theorem pass1Select_none {st : GenState} {ws : Int} {queue allU : List String}
    {last : Option String}
    (h : pass1Select st ws queue last allU = Option.none) :
    wprio st ws last 0 queue = [] ∧
      (wprio st ws last 1 queue = [] ∨ floorQueueOk st ws queue allU = false) := by
  rw [pass1Select.eq_def] at h
  split at h
  next a t h0 => cases h
  next h0 =>
    refine ⟨h0, ?_⟩
    split at h
    next b t h1 =>
      refine Or.inr ?_
      split at h
      next hf => cases h
      next hf => simpa using hf
    next h1 => exact Or.inl h1

theorem assign_selected_available {st : GenState} {ws : Int} {queue allU : List String}
    {last : Option String} {u : String} {q : List String} {r : Nat}
    (h : assign_weekly_shift_with_rotation st ws queue last allU = (some u, q, r)) :
    isAvailableForWeek st.pto st.daily u ws = true := by
  rw [assign_weekly_shift_with_rotation.eq_def] at h
  split at h
  next v hp =>
    dsimp only at h
    have hv : v = u := by
      split at h
      next => injection h with ha hb; exact Option.some.inj ha
      next => injection h with ha hb; exact Option.some.inj ha
    exact hv ▸ (eligW_true (pass1Select_some hp).2.1).2.1
  next hp =>
    split at h
    next a t h0 =>
      injection h with ha hb
      injection ha with ha
      have hm : choicePick (st.choose st.rng) (wprio st ws last 0 allU) ∈
          wprio st ws last 0 allU :=
        choicePick_mem _ _ (by rw [h0]; exact List.cons_ne_nil a t)
      exact ha ▸ (eligW_true (mem_wprio hm).2.1).2.1
    next h0 =>
      split at h
      next b t hbt =>
        split at h
        next hf =>
          injection h with ha hb
          injection ha with ha
          have hm : choicePick (st.choose st.rng) (wprio st ws last 1 allU) ∈
              wprio st ws last 1 allU :=
            choicePick_mem _ _ (by rw [hbt]; exact List.cons_ne_nil b t)
          exact ha ▸ (eligW_true (mem_wprio hm).2.1).2.1
        next => injection h with ha hb; cases ha
      next hbt =>
        split at h
        next lu =>
          split at h
          next hc =>
            injection h with ha hb
            injection ha with ha
            simp only [Bool.and_eq_true] at hc
            exact ha ▸ hc.2
          next => injection h with ha hb; cases ha
        next => injection h with ha hb; cases ha

theorem floorQueueOk_blocks {st : GenState} {ws : Int} {queue allU : List String}
    (hf : floorQueueOk st ws queue allU = true) {v : String} (hv : v ∈ allU)
    (h0 : st.monthly v = 0) :
    isAvailableForWeek st.pto st.daily v ws = false := by
  have hz : v ∈ zerosOf st.monthly allU := mem_zerosOf.mpr ⟨hv, h0⟩
  rw [floorQueueOk] at hf
  cases (Bool.or_eq_true _ _).mp hf with
  | inl he => rw [List.isEmpty_iff] at he; rw [he] at hz; cases hz
  | inr ha =>
    have hx := List.all_eq_true.mp ha v hz
    simp only [Bool.and_eq_true, Bool.not_eq_true'] at hx
    exact hx.2

theorem floorScanOk_blocks {st : GenState} {ws : Int} {allU : List String}
    (hf : floorScanOk st ws allU = true) {v : String} (hv : v ∈ allU)
    (h0 : st.monthly v = 0) :
    isAvailableForWeek st.pto st.daily v ws = false := by
  have hz : v ∈ zerosOf st.monthly allU := mem_zerosOf.mpr ⟨hv, h0⟩
  rw [floorScanOk] at hf
  cases (Bool.or_eq_true _ _).mp hf with
  | inl he => rw [List.isEmpty_iff] at he; rw [he] at hz; cases hz
  | inr ha =>
    have hx := List.all_eq_true.mp ha v hz
    simpa using hx

/-- Off the back-to-back last resort, the weekly assigner respects the
2-per-month cap: a user the assigner returns either had fewer than 2 weekly
turns, or is `last_user` reused by the last resort. -/
theorem assign_cap_aux {st : GenState} {ws : Int} {queue allU : List String}
    {last : Option String} {u : String} {q : List String} {r : Nat}
    (h : assign_weekly_shift_with_rotation st ws queue last allU = (some u, q, r))
    (h2 : 2 ≤ st.monthly u) : last = some u := by
  rw [assign_weekly_shift_with_rotation.eq_def] at h
  split at h
  next v hp =>
    dsimp only at h
    have hv : v = u := by
      split at h
      next => injection h with ha hb; exact Option.some.inj ha
      next => injection h with ha hb; exact Option.some.inj ha
    exact absurd h2 (by rw [← hv]; exact Nat.not_le.mpr (eligW_true (pass1Select_some hp).2.1).1)
  next hp =>
    split at h
    next a t h0 =>
      injection h with ha hb
      have hm : choicePick (st.choose st.rng) (wprio st ws last 0 allU) ∈
          wprio st ws last 0 allU :=
        choicePick_mem _ _ (by rw [h0]; exact List.cons_ne_nil a t)
      have := (mem_wprio hm).2.2
      rw [Option.some.inj ha] at this
      omega
    next h0 =>
      split at h
      next b t hbt =>
        split at h
        next hf =>
          injection h with ha hb
          have hm : choicePick (st.choose st.rng) (wprio st ws last 1 allU) ∈
              wprio st ws last 1 allU :=
            choicePick_mem _ _ (by rw [hbt]; exact List.cons_ne_nil b t)
          have := (mem_wprio hm).2.2
          rw [Option.some.inj ha] at this
          omega
        next => injection h with ha hb; cases ha
      next hbt =>
        split at h
        next lu =>
          split at h
          next hc => exact congrArg (fun p => p.1) h
          next => exact Option.noConfusion (congrArg (fun p => p.1) h)
        next => exact Option.noConfusion (congrArg (fun p => p.1) h)

/-- The fairness floor, as implemented: whenever the weekly assigner grants a
user a second (or later) weekly turn, every roster user still at zero weekly
turns is unavailable for the week (on PTO some day, or already holding a
shift on some day). -/
theorem assign_floor_aux {st : GenState} {ws : Int} {queue allU : List String}
    {last : Option String} {u : String} {q : List String} {r : Nat}
    (h : assign_weekly_shift_with_rotation st ws queue last allU = (some u, q, r))
    (h1 : 1 ≤ st.monthly u) :
    ∀ v ∈ allU, st.monthly v = 0 →
      isAvailableForWeek st.pto st.daily v ws = false := by
  intro v hv hv0
  rw [assign_weekly_shift_with_rotation.eq_def] at h
  split at h
  next w hp =>
    dsimp only at h
    have hw : w = u := by
      split at h
      next => injection h with ha hb; exact Option.some.inj ha
      next => injection h with ha hb; exact Option.some.inj ha
    rcases (pass1Select_some hp).2.2 with h0 | ⟨hm1, hf⟩
    · rw [hw] at h0; omega
    · exact floorQueueOk_blocks hf hv hv0
  next hp =>
    split at h
    next a t h0 =>
      injection h with ha hb
      have hm : choicePick (st.choose st.rng) (wprio st ws last 0 allU) ∈
          wprio st ws last 0 allU :=
        choicePick_mem _ _ (by rw [h0]; exact List.cons_ne_nil a t)
      have := (mem_wprio hm).2.2
      rw [Option.some.inj ha] at this
      omega
    next h0 =>
      split at h
      next b t hbt =>
        split at h
        next hf => exact floorScanOk_blocks hf hv hv0
        next => injection h with ha hb; cases ha
      next hbt =>
        split at h
        next lu =>
          split at h
          next hc =>
            injection h with ha hb
            have hlu : lu = u := Option.some.inj ha
            by_contra hav
            have hav' : isAvailableForWeek st.pto st.daily v ws = true := by
              cases hx : isAvailableForWeek st.pto st.daily v ws
              · exact absurd hx hav
              · rfl
            have hne : v ≠ lu := by
              intro hvl
              rw [hvl, hlu] at hv0
              omega
            have helig : eligW st ws (some lu) v = true :=
              eligW_of (by omega) hav' (fun l hl => by rw [← Option.some.inj hl]; exact hne)
            have : v ∈ wprio st ws (some lu) 0 allU := wprio_mem hv helig hv0
            rw [h0] at this
            cases this
          next => injection h with ha hb; cases ha
        next => injection h with ha hb; cases ha

/-- During a generation run every roster user with zero weekly turns is still
in the rotation queue (users leave the queue only by being selected, which
immediately increments their counter).  Under that invariant, when the queue
pass yields no candidate the rest of the assigner leaves the queue untouched:
the direct-scan selection's `remove` is a no-op because its pick can never
still be in the queue, and the remaining paths never touch the queue. -/
theorem assign_queue_frame {st : GenState} {ws : Int} {queue allU : List String}
    {last : Option String}
    (hinv : ∀ v ∈ allU, st.monthly v = 0 → v ∈ queue)
    (hp : pass1Select st ws queue last allU = Option.none) :
    (assign_weekly_shift_with_rotation st ws queue last allU).2.1 = queue := by
  rw [assign_weekly_shift_with_rotation.eq_def]
  split
  next v hpv => rw [hpv] at hp; cases hp
  next hpn =>
    split
    next a t h0 =>
      exfalso
      have hm := choicePick_mem (st.choose st.rng) (wprio st ws last 0 allU)
        (by rw [h0]; exact List.cons_ne_nil a t)
      obtain ⟨hmem, helig, hm0⟩ := mem_wprio hm
      have hq : choicePick (st.choose st.rng) (wprio st ws last 0 allU) ∈ queue :=
        hinv _ hmem hm0
      have hcontra : choicePick (st.choose st.rng) (wprio st ws last 0 allU) ∈
          wprio st ws last 0 queue := wprio_mem hq helig hm0
      rw [(pass1Select_none hp).1] at hcontra
      cases hcontra
    next h0 =>
      split
      next b t hbt =>
        split
        next hf =>
          dsimp only
          refine List.erase_of_not_mem ?_
          intro hcq
          have hm := choicePick_mem (st.choose st.rng) (wprio st ws last 1 allU)
            (by rw [hbt]; exact List.cons_ne_nil b t)
          obtain ⟨hmem, helig, hm1⟩ := mem_wprio hm
          have hone : choicePick (st.choose st.rng) (wprio st ws last 1 allU) ∈
              wprio st ws last 1 queue := wprio_mem hcq helig hm1
          rcases (pass1Select_none hp).2 with h1q | hfq
          · rw [h1q] at hone; cases hone
          · rw [floorQueueOk] at hfq
            rw [floorScanOk] at hf
            obtain ⟨hze, hall⟩ := Bool.or_eq_false_iff.mp hfq
            obtain ⟨z, hzmem, hzfail⟩ := List.all_eq_false.mp hall
            have hzav : isAvailableForWeek st.pto st.daily z ws = false := by
              cases (Bool.or_eq_true _ _).mp hf with
              | inl he => rw [List.isEmpty_iff] at he; rw [he] at hzmem; cases hzmem
              | inr ha => simpa using List.all_eq_true.mp ha z hzmem
            have hzcont : queue.contains z = false := by
              cases hcz : queue.contains z
              · rfl
              · exact absurd (show (queue.contains z &&
                    !isAvailableForWeek st.pto st.daily z ws) = true by
                  rw [hcz, hzav]; rfl) hzfail
            have hznot : z ∉ queue := by simpa using hzcont
            obtain ⟨hzU, hz0⟩ := mem_zerosOf.mp hzmem
            exact hznot (hinv z hzU hz0)
        next => rfl
      next hbt =>
        split
        next lu =>
          split
          next => rfl
          next => rfl
        next => rfl

/-! ## Lemmas: the stable key sort used by the daily assigner and resolver -/

theorem sortByKey_perm (key : String → Nat) (l : List String) :
    (sortByKey key l).Perm l :=
  List.perm_insertionSort _ l

theorem sortByKey_sorted (key : String → Nat) (l : List String) :
    (sortByKey key l).Pairwise fun a b => key a ≤ key b := by
  haveI : IsTotal String fun a b => key a ≤ key b := ⟨fun a b => Nat.le_total _ _⟩
  haveI : IsTrans String fun a b => key a ≤ key b :=
    ⟨fun _ _ _ hab hbc => Nat.le_trans hab hbc⟩
  exact List.sorted_insertionSort _ l

theorem orderedInsert_filter_pos (key : String → Nat) (x : String) (l : List String)
    (p : String → Bool) (hx : p x = true)
    (hlt : ∀ y, key y < key x → p y = false) :
    (List.orderedInsert (fun a b => key a ≤ key b) x l).filter p = x :: l.filter p := by
  induction l with
  | nil => simp [List.orderedInsert, hx]
  | cons y ys ih =>
    show (if key x ≤ key y then x :: y :: ys
        else y :: List.orderedInsert (fun a b => key a ≤ key b) x ys).filter p = _
    by_cases hle : key x ≤ key y
    · rw [if_pos hle, List.filter_cons, hx]
      simp
    · rw [if_neg hle]
      have hy : p y = false := hlt y (Nat.lt_of_not_le hle)
      rw [List.filter_cons, hy, ih]
      simp [List.filter_cons, hy]

theorem orderedInsert_filter_neg (key : String → Nat) (x : String) (l : List String)
    (p : String → Bool) (hx : p x = false) :
    (List.orderedInsert (fun a b => key a ≤ key b) x l).filter p = l.filter p := by
  induction l with
  | nil => simp [List.orderedInsert, hx]
  | cons y ys ih =>
    show (if key x ≤ key y then x :: y :: ys
        else y :: List.orderedInsert (fun a b => key a ≤ key b) x ys).filter p = _
    by_cases hle : key x ≤ key y
    · rw [if_pos hle, List.filter_cons, hx]
      simp [List.filter_cons]
    · rw [if_neg hle, List.filter_cons, List.filter_cons, ih]

/-- Stability of the key sort: candidates with any fixed key value keep their
original relative order (Python's `list.sort` is stable). -/
theorem sortByKey_filter_key (key : String → Nat) (l : List String) (c : Nat) :
    (sortByKey key l).filter (fun u => key u == c) =
      l.filter (fun u => key u == c) := by
  induction l with
  | nil => rfl
  | cons x xs ih =>
    show (List.orderedInsert (fun a b => key a ≤ key b) x (sortByKey key xs)).filter _ = _
    by_cases hx : (key x == c) = true
    · rw [orderedInsert_filter_pos key x _ _ hx]
      · rw [ih, List.filter_cons, hx]
        simp
      · intro y hy
        have hc : key x = c := by simpa using hx
        have : key y ≠ c := by omega
        simpa using this
    · rw [orderedInsert_filter_neg key x _ _ (Bool.not_eq_true _ ▸ hx)]
      rw [ih, List.filter_cons]
      simp only [hx]
      simp at hx
      simp [hx]

/-- A `find?` over a list sorted ascending by `key` returns an element whose
key is minimal among all matching elements. -/
theorem find?_sorted_min (key : String → Nat) (l : List String) (p : String → Bool)
    (u : String) (hsort : l.Pairwise fun a b => key a ≤ key b)
    (hfind : l.find? p = some u) :
    ∀ v ∈ l, p v = true → key u ≤ key v := by
  induction l with
  | nil => cases hfind
  | cons x xs ih =>
    rw [List.find?_cons] at hfind
    cases hpx : p x with
    | true =>
      rw [hpx] at hfind
      have hxu : x = u := Option.some.inj hfind
      intro v hv hpv
      cases List.mem_cons.mp hv with
      | inl he => rw [← hxu, he]
      | inr hm => exact hxu ▸ (List.pairwise_cons.mp hsort).1 v hm
    | false =>
      rw [hpx] at hfind
      intro v hv hpv
      cases List.mem_cons.mp hv with
      | inl he => rw [he] at hpv; rw [hpv] at hpx; cases hpx
      | inr hm => exact ih (List.pairwise_cons.mp hsort).2 hfind v hm hpv

/-! ## Lemmas: the validator's per-user grouping -/

theorem pairMem_addAssign {acc : List (String × List (Int × Tier × Slot))}
    {w u : String} {b a : Int × Tier × Slot} :
    pairMem (addAssign acc w b) u a ↔ pairMem acc u a ∨ (u = w ∧ a = b) := by
  induction acc with
  | nil =>
    simp only [addAssign, pairMem, List.mem_singleton, List.not_mem_nil]
    constructor
    · rintro ⟨l, hl, hal⟩
      have h1 : u = w ∧ l = [b] := by
        have := Prod.mk.injEq u l w [b] ▸ congrArg (fun x => x) hl
        exact ⟨congrArg Prod.fst hl, congrArg Prod.snd hl⟩
      rcases h1 with ⟨hu, hlb⟩
      rw [hlb] at hal
      exact Or.inr ⟨hu, List.mem_singleton.mp hal⟩
    · rintro (⟨l, hl, _⟩ | ⟨hu, hab⟩)
      · cases hl
      · exact ⟨[b], by rw [hu], by rw [hab]; exact List.mem_singleton.mpr rfl⟩
  | cons p rest ih =>
    obtain ⟨v, l⟩ := p
    rw [addAssign]
    by_cases hvw : v = w
    · rw [if_pos hvw]
      simp only [pairMem, List.mem_cons]
      constructor
      · rintro ⟨l2, hl2 | hl2, hal2⟩
        · have hu : u = v := congrArg Prod.fst hl2
          have hll : l2 = l ++ [b] := congrArg Prod.snd hl2
          rw [hll, List.mem_append, List.mem_singleton] at hal2
          rcases hal2 with hin | hab
          · exact Or.inl ⟨l, Or.inl (by rw [hu]), hin⟩
          · exact Or.inr ⟨hu.trans hvw, hab⟩
        · exact Or.inl ⟨l2, Or.inr hl2, hal2⟩
      · rintro (⟨l2, hl2 | hl2, hal2⟩ | ⟨hu, hab⟩)
        · have hu : u = v := congrArg Prod.fst hl2
          have hll : l2 = l := congrArg Prod.snd hl2
          exact ⟨l ++ [b], Or.inl (by rw [hu]), by
            rw [← hll]; exact List.mem_append.mpr (Or.inl hal2)⟩
        · exact ⟨l2, Or.inr hl2, hal2⟩
        · exact ⟨l ++ [b], Or.inl (by rw [hu, hvw]),
            List.mem_append.mpr (Or.inr (by rw [hab]; exact List.mem_singleton.mpr rfl))⟩
    · rw [if_neg hvw]
      simp only [pairMem, List.mem_cons] at ih ⊢
      constructor
      · rintro ⟨l2, hl2 | hl2, hal2⟩
        · exact Or.inl ⟨l2, Or.inl hl2, hal2⟩
        · rcases ih.mp ⟨l2, hl2, hal2⟩ with hold | hnew
          · obtain ⟨l3, hl3, hal3⟩ := hold
            exact Or.inl ⟨l3, Or.inr hl3, hal3⟩
          · exact Or.inr hnew
      · rintro (⟨l2, hl2 | hl2, hal2⟩ | ⟨hu, hab⟩)
        · exact ⟨l2, Or.inl hl2, hal2⟩
        · obtain ⟨l3, hl3, hal3⟩ := ih.mpr (Or.inl ⟨l2, hl2, hal2⟩)
          exact ⟨l3, Or.inr hl3, hal3⟩
        · obtain ⟨l3, hl3, hal3⟩ := ih.mpr (Or.inr ⟨hu, hab⟩)
          exact ⟨l3, Or.inr hl3, hal3⟩

theorem pairMem_collect_aux (sched : List Entry)
    (acc : List (String × List (Int × Tier × Slot))) (u : String)
    (a : Int × Tier × Slot) :
    pairMem (sched.foldl (fun ac e => addAssign ac e.user (e.date, e.tier, e.slot)) acc) u a ↔
      pairMem acc u a ∨ ∃ e ∈ sched, e.user = u ∧ (e.date, e.tier, e.slot) = a := by
  induction sched generalizing acc with
  | nil => simp
  | cons e es ih =>
    rw [List.foldl_cons, ih, pairMem_addAssign]
    constructor
    · rintro ((hold | ⟨hu, hab⟩) | hnew)
      · exact Or.inl hold
      · exact Or.inr ⟨e, List.mem_cons_self e es, hu.symm, hab.symm⟩
      · obtain ⟨f, hf, hfu, hfa⟩ := hnew
        exact Or.inr ⟨f, List.mem_cons_of_mem e hf, hfu, hfa⟩
    · rintro (hold | ⟨f, hf, hfu, hfa⟩)
      · exact Or.inl (Or.inl hold)
      · rcases List.mem_cons.mp hf with he | hes
        · exact Or.inl (Or.inr ⟨by rw [he] at hfu; exact hfu.symm,
            by rw [he] at hfa; exact hfa.symm⟩)
        · exact Or.inr ⟨f, hes, hfu, hfa⟩

/-- Membership in the PTO-violation findings, characterised: a finding for
(user, date, tier, slot) is reported exactly when some schedule cell carries
that user (tags stripped) in that slot and the user is on PTO that date. -/
theorem mem_pto_violation_findings (pto : String → List Int) (sched : List Entry)
    (u : String) (d : Int) (t : Tier) (s : Slot) :
    (⟨u, d, t, s⟩ : VEntry) ∈ pto_violation_findings pto sched ↔
      (∃ e ∈ sched, e.user = u ∧ e.date = d ∧ e.tier = t ∧ e.slot = s) ∧
        (pto u).contains d = true := by
  rw [pto_violation_findings, List.mem_flatMap]
  constructor
  · rintro ⟨p, hp, hm⟩
    rw [List.mem_map] at hm
    obtain ⟨a, ha, heq⟩ := hm
    rw [List.mem_filter] at ha
    have hu : p.1 = u := congrArg VEntry.user heq
    have hd : a.1 = d := congrArg VEntry.date heq
    have ht : a.2.1 = t := congrArg VEntry.tier heq
    have hs : a.2.2 = s := congrArg VEntry.slot heq
    have hpm : pairMem (collect_user_assignments sched) u a :=
      ⟨p.2, by rw [← hu]; simpa using hp, ha.1⟩
    rw [collect_user_assignments] at hpm
    rcases (pairMem_collect_aux sched [] u a).mp hpm with hbase | ⟨e, he, heu, hea⟩
    · obtain ⟨l, hl, _⟩ := hbase
      cases hl
    · refine ⟨⟨e, he, heu, ?_, ?_, ?_⟩, ?_⟩
      · rw [← hd]; exact congrArg Prod.fst hea
      · rw [← ht]; exact congrArg (fun x => x.2.1) hea
      · rw [← hs]; exact congrArg (fun x => x.2.2) hea
      · rw [← hd, ← hu]; exact ha.2
  · rintro ⟨⟨e, he, heu, hed, het, hes⟩, hpto⟩
    have hpm : pairMem (collect_user_assignments sched) u (d, t, s) := by
      rw [collect_user_assignments]
      refine (pairMem_collect_aux sched [] u (d, t, s)).mpr (Or.inr ⟨e, he, heu, ?_⟩)
      rw [hed, het, hes]
    obtain ⟨l, hl, hal⟩ := hpm
    refine ⟨(u, l), hl, ?_⟩
    rw [List.mem_map]
    exact ⟨(d, t, s), List.mem_filter.mpr ⟨hal, hpto⟩, rfl⟩

/-! ## Invariant: untagged assignments respect availability -/

theorem prod3_eta {α β γ : Type} (p : α × β × γ) : (p.1, p.2.1, p.2.2) = p := by
  obtain ⟨a, b, c⟩ := p
  rfl

theorem assign_fst_available {st : GenState} {ws : Int} {queue allU : List String}
    {last : Option String} {u : String}
    (h : (assign_weekly_shift_with_rotation st ws queue last allU).1 = some u) :
    isAvailableForWeek st.pto st.daily u ws = true := by
  have he := prod3_eta (assign_weekly_shift_with_rotation st ws queue last allU)
  rw [h] at he
  exact assign_selected_available he.symm

theorem foldl_schedOk {α : Type} {pto : String → List Int} (f : GenState → α → GenState)
    (hf : ∀ s x, SchedOk pto s → SchedOk pto (f s x)) :
    ∀ (l : List α) (s : GenState), SchedOk pto s → SchedOk pto (l.foldl f s) := by
  intro l
  induction l with
  | nil => intro s hs; exact hs
  | cons x xs ih => intro s hs; exact ih _ (hf s x hs)

theorem schedOk_fallback {pto : String → List Int} {st : GenState} {tier : Tier}
    {date : Int} {shift : Slot} {users : List String} {already : String}
    (h : SchedOk pto st) :
    SchedOk pto (attempt_fallback_coverage st tier date shift users already) := by
  obtain ⟨hpto, hok⟩ := h
  rw [attempt_fallback_coverage]
  have hdouble : SchedOk pto (if already == "" then st else
      { st with
        schedule := st.schedule ++ [⟨date, tier, shift, already, Tag.double⟩],
        shiftCounts := bump st.shiftCounts already 1,
        fallbackLog := st.fallbackLog ++ [⟨date, tier, shift, already, Reason.doubleShift⟩] }) := by
    split
    · exact ⟨hpto, hok⟩
    · refine ⟨hpto, ?_⟩
      intro e he
      rcases List.mem_append.mp he with hold | hnew
      · exact hok e hold
      · rw [List.mem_singleton.mp hnew]
        intro htag
        cases htag
  split
  · exact hdouble
  · split
    next u hu =>
      refine ⟨hpto, ?_⟩
      intro e he
      rcases List.mem_append.mp he with hold | hnew
      · exact hok e hold
      · rw [List.mem_singleton.mp hnew]
        intro _
        have hpred := List.find?_some hu
        rw [← hpto]
        exact (Bool.and_eq_true _ _ ▸ hpred).1
    next => exact hdouble

theorem schedOk_emergencyStep {pto : String → List Int} {sortedU : List String}
    {tier : Tier} {date : Int} {s : GenState} {sh : Slot} (hs : SchedOk pto s) :
    SchedOk pto (emergencyStep sortedU tier date s sh) := by
  obtain ⟨hpto, hok⟩ := hs
  rw [emergencyStep.eq_def]
  split
  next u hu =>
    refine ⟨hpto, ?_⟩
    intro e he
    rcases List.mem_append.mp he with hold | hnew
    · exact hok e hold
    · rw [List.mem_singleton.mp hnew]
      intro htag
      cases htag
  next =>
    split
    next u t =>
      refine ⟨hpto, ?_⟩
      intro e he
      rcases List.mem_append.mp he with hold | hnew
      · exact hok e hold
      · rw [List.mem_singleton.mp hnew]
        intro htag
        cases htag
    next => exact ⟨hpto, hok⟩

theorem schedOk_emergency {pto : String → List Int} {st : GenState} {tier : Tier}
    {date : Int} {users : List String} (h : SchedOk pto st) :
    SchedOk pto (attempt_emergency_coverage st tier date users) := by
  rw [attempt_emergency_coverage]
  exact foldl_schedOk _ (fun s x hs => schedOk_emergencyStep hs) _ _ h

theorem schedOk_daily {pto : String → List Int} {st : GenState} {tier : Tier}
    {date : Int} {users : List String} (h : SchedOk pto st) :
    SchedOk pto (assign_daily_shifts_with_fairness st tier date users) := by
  obtain ⟨hpto, hok⟩ := h
  rw [assign_daily_shifts_with_fairness]
  split
  next h2 =>
    refine ⟨hpto, ?_⟩
    intro e he
    rcases List.mem_append.mp he with hold | hnew
    · exact hok e hold
    · have hlen : (sortByKey (fun u => st.cumulative u + st.shiftCounts u)
          (users.filter fun u => isAvailable st.pto u date &&
            !((st.daily date).contains u))).length =
          (users.filter fun u => isAvailable st.pto u date &&
            !((st.daily date).contains u)).length :=
        (sortByKey_perm _ _).length_eq
      have havail : ∀ i (hi : i < 2), isAvailable st.pto
          ((sortByKey (fun u => st.cumulative u + st.shiftCounts u)
            (users.filter fun u => isAvailable st.pto u date &&
              !((st.daily date).contains u))).getD i "") date = true := by
        intro i hi
        have hilen : i < (sortByKey (fun u => st.cumulative u + st.shiftCounts u)
            (users.filter fun u => isAvailable st.pto u date &&
              !((st.daily date).contains u))).length := by omega
        rw [List.getD_eq_getElem _ _ hilen]
        have hmem := List.getElem_mem hilen
        have hmem2 := (sortByKey_perm _ _).mem_iff.mp hmem
        rw [List.mem_filter] at hmem2
        exact (Bool.and_eq_true _ _ ▸ hmem2.2).1
      rcases List.mem_cons.mp hnew with he1 | hnew2
      · rw [he1]
        intro _
        rw [← hpto]
        exact havail 0 (by omega)
      · rw [List.mem_singleton.mp hnew2]
        intro _
        rw [← hpto]
        exact havail 1 (by omega)
  next h2 =>
    split
    next u hequ =>
      apply schedOk_fallback
      refine ⟨hpto, ?_⟩
      intro e he
      rcases List.mem_append.mp he with hold | hnew
      · exact hok e hold
      · rw [List.mem_singleton.mp hnew]
        intro _
        rw [← hpto]
        have hu : u ∈ users.filter fun v => isAvailable st.pto v date &&
            !((st.daily date).contains v) := by
          rw [hequ]
          exact List.mem_singleton.mpr rfl
        rw [List.mem_filter] at hu
        exact (Bool.and_eq_true _ _ ▸ hu.2).1
    next => exact schedOk_emergency ⟨hpto, hok⟩

theorem schedOk_writeWeek {pto : String → List Int} {st : GenState} {ws : Int}
    {tier : Tier} {slot : Slot} {u : String} (h : SchedOk pto st)
    (hav : isAvailableForWeek st.pto st.daily u ws = true) :
    SchedOk pto (writeWeek st ws tier slot u) := by
  obtain ⟨hpto, hok⟩ := h
  refine ⟨hpto, ?_⟩
  intro e he
  rw [writeWeek] at he
  rcases List.mem_append.mp he with hold | hnew
  · exact hok e hold
  · rw [List.mem_map] at hnew
    obtain ⟨d, hd, hde⟩ := hnew
    rw [← hde]
    intro _
    rw [isAvailableForWeek, List.all_eq_true] at hav
    have hai := hav d hd
    rw [← hpto]
    exact (Bool.and_eq_true _ _ ▸ hai).1

theorem schedOk_stAfterUpgrade {pto : String → List Int} {st : GenState} {ws : Int}
    (h : SchedOk pto st) : SchedOk pto (stAfterUpgrade st ws) := by
  rw [stAfterUpgrade]
  split
  next u hr =>
    have hav : isAvailableForWeek st.pto st.daily u ws = true := by
      apply @assign_fst_available st ws st.upQueue st.upgradeUsers st.lastUp u
      rw [← weekUpgradePick]
      exact hr
    have hW := @schedOk_writeWeek pto { st with
        upQueue := (weekUpgradePick st ws).2.1, rng := (weekUpgradePick st ws).2.2 }
      ws Tier.upgrade Slot.full u ⟨h.1, h.2⟩ hav
    exact ⟨hW.1, hW.2⟩
  next => exact ⟨h.1, h.2⟩

theorem schedOk_stAfterT3m {pto : String → List Int} {st : GenState} {ws : Int}
    (h : SchedOk pto st) : SchedOk pto (stAfterT3m st ws) := by
  rw [stAfterT3m]
  have hS := @schedOk_stAfterUpgrade pto st ws h
  split
  next u hr =>
    have hav : isAvailableForWeek (stAfterUpgrade st ws).pto (stAfterUpgrade st ws).daily
        u ws = true := by
      apply @assign_fst_available (stAfterUpgrade st ws) ws (stAfterUpgrade st ws).t3mQueue
        (stAfterUpgrade st ws).tier3 (stAfterUpgrade st ws).lastT3m u
      rw [← weekT3mPick]
      exact hr
    have hW := @schedOk_writeWeek pto { stAfterUpgrade st ws with
        t3mQueue := (weekT3mPick st ws).2.1, rng := (weekT3mPick st ws).2.2 }
      ws Tier.tier3 Slot.morning u ⟨hS.1, hS.2⟩ hav
    exact ⟨hW.1, hW.2⟩
  next => exact ⟨hS.1, hS.2⟩

theorem schedOk_stAfterT3e {pto : String → List Int} {st : GenState} {ws : Int}
    (h : SchedOk pto st) : SchedOk pto (stAfterT3e st ws) := by
  rw [stAfterT3e]
  have hS := @schedOk_stAfterT3m pto st ws h
  split
  next u hr =>
    have hav : isAvailableForWeek (stAfterT3m st ws).pto (stAfterT3m st ws).daily
        u ws = true := by
      apply @assign_fst_available (stAfterT3m st ws) ws (stAfterT3m st ws).t3eQueue
        (stAfterT3m st ws).tier3 (stAfterT3m st ws).lastT3e u
      rw [← weekT3ePick]
      exact hr
    have hW := @schedOk_writeWeek pto { stAfterT3m st ws with
        t3eQueue := (weekT3ePick st ws).2.1, rng := (weekT3ePick st ws).2.2 }
      ws Tier.tier3 Slot.evening u ⟨hS.1, hS.2⟩ hav
    exact ⟨hW.1, hW.2⟩
  next => exact ⟨hS.1, hS.2⟩

theorem schedOk_generateWeek {pto : String → List Int} {st : GenState} {ws : Int}
    (h : SchedOk pto st) : SchedOk pto (generateWeek st ws) := by
  rw [generateWeek]
  exact foldl_schedOk _ (fun s i hs => schedOk_daily hs) _ _ (schedOk_stAfterT3e h)

theorem generate_schedOk (tier2 tier3 upg : List String) (pto : String → List Int)
    (cum : String → Nat) (lu lm le : Option String)
    (sh : Nat → List String → List String) (ch : Nat → List String → Nat)
    (y m : Int) :
    SchedOk pto (generate_schedule tier2 tier3 upg pto cum lu lm le sh ch y m) := by
  rw [generate_schedule]
  refine foldl_schedOk _ (fun s x hs => schedOk_generateWeek hs) _ _ ?_
  exact ⟨rfl, fun e he => absurd he (List.not_mem_nil e)⟩

/-! ## Helper lemmas for slot-filling and the week step -/

theorem assign_fst_cap {st : GenState} {ws : Int} {queue allU : List String}
    {last : Option String} {u : String}
    (h : (assign_weekly_shift_with_rotation st ws queue last allU).1 = some u)
    (h2 : 2 ≤ st.monthly u) : last = some u := by
  have he := prod3_eta (assign_weekly_shift_with_rotation st ws queue last allU)
  rw [h] at he
  exact assign_cap_aux he.symm h2

theorem lookupSlot_isSome_of_mem {sched : List Entry} {d : Int} {t : Tier} {s : Slot}
    (e : Entry) (he : e ∈ sched) (hd : e.date = d) (ht : e.tier = t) (hs : e.slot = s) :
    (lookupSlot sched d t s).isSome = true := by
  rw [lookupSlot]
  cases hf : sched.find? fun x => decide (x.date = d) && decide (x.tier = t) &&
      decide (x.slot = s) with
  | some _ => rfl
  | none =>
    have hno := List.find?_eq_none.mp hf e he
    exact absurd (by rw [hd, ht, hs]; simp) hno

theorem fallback_adds {st : GenState} {tier : Tier} {date : Int} {shift : Slot}
    {users : List String} {already : String} (ha : (already == "") = false) :
    ∃ u tg, (attempt_fallback_coverage st tier date shift users already).schedule =
      st.schedule ++ [⟨date, tier, shift, u, tg⟩] := by
  rw [attempt_fallback_coverage]
  have hdouble : (if already == "" then st else
      { st with
        schedule := st.schedule ++ [⟨date, tier, shift, already, Tag.double⟩],
        shiftCounts := bump st.shiftCounts already 1,
        fallbackLog := st.fallbackLog ++
          [⟨date, tier, shift, already, Reason.doubleShift⟩] }).schedule =
      st.schedule ++ [⟨date, tier, shift, already, Tag.double⟩] := by
    rw [if_neg (by simp [ha])]
  split
  · exact ⟨already, Tag.double, hdouble⟩
  · split
    next u hu => exact ⟨u, Tag.none, rfl⟩
    next => exact ⟨already, Tag.double, hdouble⟩

theorem emergencyStep_schedule (sortedU : List String) (tier : Tier) (date : Int)
    (s : GenState) (sh : Slot) (hne : sortedU ≠ []) :
    ∃ u tg, (emergencyStep sortedU tier date s sh).schedule =
      s.schedule ++ [⟨date, tier, sh, u, tg⟩] := by
  cases sortedU with
  | nil => exact absurd rfl hne
  | cons a t =>
    rw [emergencyStep.eq_def]
    split
    next u hu => exact ⟨u, Tag.emergency, rfl⟩
    next => exact ⟨a, Tag.emergencyDouble, rfl⟩

theorem stAfterUpgrade_lastT3m (st : GenState) (ws : Int) :
    (stAfterUpgrade st ws).lastT3m = st.lastT3m := by
  rw [stAfterUpgrade]
  split <;> rfl

theorem stAfterUpgrade_lastT3e (st : GenState) (ws : Int) :
    (stAfterUpgrade st ws).lastT3e = st.lastT3e := by
  rw [stAfterUpgrade]
  split <;> rfl

theorem stAfterT3m_lastT3e (st : GenState) (ws : Int) :
    (stAfterT3m st ws).lastT3e = (stAfterUpgrade st ws).lastT3e := by
  rw [stAfterT3m]
  split <;> rfl

theorem bump_le (f : String → Nat) (u v : String) (k : Nat) :
    f v ≤ bump f u k v := by
  rw [bump]
  split <;> omega

theorem stAfterUpgrade_monthly_le (st : GenState) (ws : Int) (u : String) :
    st.monthly u ≤ (stAfterUpgrade st ws).monthly u := by
  rw [stAfterUpgrade]
  split
  next v hv => exact bump_le st.monthly v u 1
  next => exact Nat.le_refl _

theorem stAfterT3m_monthly_le (st : GenState) (ws : Int) (u : String) :
    (stAfterUpgrade st ws).monthly u ≤ (stAfterT3m st ws).monthly u := by
  rw [stAfterT3m]
  split
  next v hv => exact bump_le (stAfterUpgrade st ws).monthly v u 1
  next => exact Nat.le_refl _

/-! ## Slot-filling lemmas for the daily assigner -/

theorem lookupSlot_isSome_elim {sched : List Entry} {d : Int} {t : Tier} {s : Slot}
    (h : (lookupSlot sched d t s).isSome = true) :
    ∃ e ∈ sched, e.date = d ∧ e.tier = t ∧ e.slot = s := by
  rw [lookupSlot] at h
  cases hf : sched.find? fun x => decide (x.date = d) && decide (x.tier = t) &&
      decide (x.slot = s) with
  | none => rw [hf] at h; cases h
  | some e =>
    have hm := List.mem_of_find?_eq_some hf
    have hp := List.find?_some hf
    simp only [Bool.and_eq_true, decide_eq_true_eq] at hp
    exact ⟨e, hm, hp.1.1, hp.1.2, hp.2⟩

theorem fallback_schedule_extends (st : GenState) (tier : Tier) (date : Int)
    (shift : Slot) (users : List String) (already : String) :
    ∃ tail, (attempt_fallback_coverage st tier date shift users already).schedule =
      st.schedule ++ tail := by
  rw [attempt_fallback_coverage]
  have hdouble : ∃ tail, (if already == "" then st else
      { st with
        schedule := st.schedule ++ [⟨date, tier, shift, already, Tag.double⟩],
        shiftCounts := bump st.shiftCounts already 1,
        fallbackLog := st.fallbackLog ++
          [⟨date, tier, shift, already, Reason.doubleShift⟩] }).schedule =
      st.schedule ++ tail := by
    split
    · exact ⟨[], (List.append_nil _).symm⟩
    · exact ⟨[⟨date, tier, shift, already, Tag.double⟩], rfl⟩
  split
  · exact hdouble
  · split
    next u hu => exact ⟨[⟨date, tier, shift, u, Tag.none⟩], rfl⟩
    next => exact hdouble

theorem fallback_keeps_slot {st : GenState} {tier : Tier} {date : Int} {shift : Slot}
    {users : List String} {already : String} {d0 : Int} {t0 : Tier} {s0 : Slot}
    (h : (lookupSlot st.schedule d0 t0 s0).isSome = true) :
    (lookupSlot (attempt_fallback_coverage st tier date shift users already).schedule
      d0 t0 s0).isSome = true := by
  obtain ⟨e, he, hd, ht, hs⟩ := lookupSlot_isSome_elim h
  obtain ⟨tail, htail⟩ := fallback_schedule_extends st tier date shift users already
  rw [htail]
  exact lookupSlot_isSome_of_mem e (List.mem_append_left _ he) hd ht hs

theorem fallback_slot_filled {st : GenState} {tier : Tier} {date : Int} {shift : Slot}
    {users : List String} {already : String} (ha : (already == "") = false) :
    (lookupSlot (attempt_fallback_coverage st tier date shift users already).schedule
      date tier shift).isSome = true := by
  obtain ⟨u, tg, hsch⟩ := @fallback_adds st tier date shift users already ha
  rw [hsch]
  exact lookupSlot_isSome_of_mem ⟨date, tier, shift, u, tg⟩
    (List.mem_append_right _ (List.mem_cons_self _ _)) rfl rfl rfl

theorem emergency_slots_filled (st : GenState) (date : Int) (users : List String)
    (hpool : st.tier2 ++ st.tier3 ≠ []) :
    (lookupSlot (attempt_emergency_coverage st Tier.tier2 date users).schedule
      date Tier.tier2 Slot.morning).isSome = true ∧
    (lookupSlot (attempt_emergency_coverage st Tier.tier2 date users).schedule
      date Tier.tier2 Slot.evening).isSome = true := by
  have hpne : sortByKey st.shiftCounts (emergencyPool st Tier.tier2) ≠ [] := by
    intro hnil
    have hlen := (sortByKey_perm st.shiftCounts (emergencyPool st Tier.tier2)).length_eq
    rw [hnil] at hlen
    have hempty : emergencyPool st Tier.tier2 = [] :=
      List.length_eq_zero.mp hlen.symm
    rw [emergencyPool, if_neg (by decide : ¬(Tier.tier2 = Tier.upgrade))] at hempty
    exact hpool ((List.dedup_eq_nil _).mp hempty)
  have hred : attempt_emergency_coverage st Tier.tier2 date users =
      emergencyStep (sortByKey st.shiftCounts (emergencyPool st Tier.tier2)) Tier.tier2 date
        (emergencyStep (sortByKey st.shiftCounts (emergencyPool st Tier.tier2)) Tier.tier2
          date st Slot.morning) Slot.evening := rfl
  obtain ⟨u1, t1, h1⟩ := emergencyStep_schedule
    (sortByKey st.shiftCounts (emergencyPool st Tier.tier2)) Tier.tier2 date st
    Slot.morning hpne
  obtain ⟨u2, t2, h2⟩ := emergencyStep_schedule
    (sortByKey st.shiftCounts (emergencyPool st Tier.tier2)) Tier.tier2 date
    (emergencyStep (sortByKey st.shiftCounts (emergencyPool st Tier.tier2)) Tier.tier2
      date st Slot.morning) Slot.evening hpne
  rw [hred, h2, h1]
  constructor
  · exact lookupSlot_isSome_of_mem ⟨date, Tier.tier2, Slot.morning, u1, t1⟩
      (List.mem_append_left _ (List.mem_append_right _ (List.mem_cons_self _ _)))
      rfl rfl rfl
  · exact lookupSlot_isSome_of_mem ⟨date, Tier.tier2, Slot.evening, u2, t2⟩
      (List.mem_append_right _ (List.mem_cons_self _ _)) rfl rfl rfl

/-! ## Claim theorems -/

/-- C1, counterexample: the claim "every user's monthly weekly-shift-turn
count is at most 2" fails on the code.  In a February-2021 run whose upgrade
roster is the single user "A" (no PTO), the back-to-back last resort reuses
"A" in weeks 2, 3 and 4, driving the shared monthly weekly counter to 4. -/
theorem C1_counterexample : runSolo.monthly "A" = 4 ∧ ¬(runSolo.monthly "A" ≤ 2) := by
  constructor <;> decide

/-- C1, amended: the 2-per-month cap is enforced on the rotation-queue pass
and on the direct-scan pass — any user the weekly assigner selects other than
by the back-to-back last resort (i.e. other than reusing `last_user`) had
fewer than 2 weekly turns; only the last-resort path can push a user past the
cap. -/
theorem C1_theorem {st : GenState} {ws : Int} {queue allU : List String}
    {last : Option String} {u : String}
    (h : (assign_weekly_shift_with_rotation st ws queue last allU).1 = some u)
    (hne : last ≠ some u) : st.monthly u < 2 := by
  by_contra hge
  exact hne (assign_fst_cap h (Nat.le_of_not_lt hge))

/-- C1, witness: a fresh two-user roster; the queue pass picks "B", who is not
`last_user`, and indeed has fewer than 2 weekly turns. -/
theorem C1_witness :
    (assign_weekly_shift_with_rotation dState 0 ["B", "C"] Option.none ["B", "C"]).1 =
      some "B" ∧
    (Option.none : Option String) ≠ some "B" ∧ dState.monthly "B" < 2 :=
  ⟨by decide, by decide,
    @C1_theorem dState 0 ["B", "C"] ["B", "C"] Option.none "B" (by decide) (by decide)⟩

/-- C2: the fairness floor.  Whenever the weekly assigner selects a user who
already holds a weekly turn this month (a second turn, given the cap), every
roster user still at zero weekly turns was unable to take the week: on PTO
some day of it, or already assigned some day of it.  This covers the queue
pass, the direct scan and the back-to-back last resort. -/
theorem C2_theorem {st : GenState} {ws : Int} {queue allU : List String}
    {last : Option String} {u : String}
    (h : (assign_weekly_shift_with_rotation st ws queue last allU).1 = some u)
    (h1 : 1 ≤ st.monthly u) :
    ∀ v ∈ allU, st.monthly v = 0 →
      isAvailableForWeek st.pto st.daily v ws = false := by
  have he := prod3_eta (assign_weekly_shift_with_rotation st ws queue last allU)
  rw [h] at he
  exact assign_floor_aux he.symm h1

/-- C2, witness: both roster users already hold one turn; the queue pass
grants "A" a second turn and the floor condition holds (vacuously: no
zero-turn user exists). -/
theorem C2_witness :
    (assign_weekly_shift_with_rotation wState 0 ["A"] Option.none ["A", "B"]).1 =
      some "A" ∧
    1 ≤ wState.monthly "A" ∧
    ∀ v ∈ ["A", "B"], wState.monthly v = 0 →
      isAvailableForWeek wState.pto wState.daily v 0 = false :=
  ⟨by decide, by decide,
    @C2_theorem wState 0 ["A"] ["A", "B"] Option.none "A" (by decide) (by decide)⟩

/-- C3: in every generated schedule — any rosters, PTO sets, continuation
state, randomness and month — every entry that carries no tag is to a user
whose unavailable set does not contain the entry's date.  Weekly entries,
normal daily entries and untagged cross-tier fallback entries are all covered;
the tagged DOUBLE / EMERGENCY / EMERGENCY-DOUBLE entries are exempt. -/
theorem C3_theorem (tier2 tier3 upg : List String) (pto : String → List Int)
    (cum : String → Nat) (lu lm le : Option String)
    (sh : Nat → List String → List String) (ch : Nat → List String → Nat)
    (y m : Int) (e : Entry)
    (he : e ∈ (generate_schedule tier2 tier3 upg pto cum lu lm le sh ch y m).schedule)
    (ht : e.tag = Tag.none) : isAvailable pto e.user e.date = true :=
  (generate_schedOk tier2 tier3 upg pto cum lu lm le sh ch y m).2 e he ht

/-- C3, witness: the first upgrade entry of the February-2021 single-user run
is untagged, and the theorem yields its availability. -/
theorem C3_witness :
    (⟨18659, Tier.upgrade, Slot.full, "A", Tag.none⟩ : Entry) ∈ runSolo.schedule ∧
    isAvailable noPto "A" 18659 = true :=
  ⟨by decide,
    C3_theorem [] [] ["A"] noPto zeroCum Option.none Option.none Option.none
      idShuffle zeroChoose 2021 2 ⟨18659, Tier.upgrade, Slot.full, "A", Tag.none⟩
      (by decide) (by decide)⟩

/-- C8: when the rotation-queue pass yields no candidate and selection falls
back to the direct roster scan, the queue is not consumed or advanced — under
the run invariant that every roster user with zero weekly turns is still in
the queue (true throughout a generation run, since users leave the queue only
on selection, which immediately increments their counter), the queue after
the call equals the queue before it. -/
theorem C8_theorem {st : GenState} {ws : Int} {queue allU : List String}
    {last : Option String}
    (hinv : ∀ v ∈ allU, st.monthly v = 0 → v ∈ queue)
    (hp : pass1Select st ws queue last allU = Option.none) :
    (assign_weekly_shift_with_rotation st ws queue last allU).2.1 = queue :=
  assign_queue_frame hinv hp

/-- C8, witness: an exhausted (empty) queue with both users at one turn; the
direct scan selects a user and the queue is returned unchanged. -/
theorem C8_witness :
    (∀ v ∈ ["A", "B"], wState.monthly v = 0 → v ∈ ([] : List String)) ∧
    pass1Select wState 0 [] Option.none ["A", "B"] = Option.none ∧
    (assign_weekly_shift_with_rotation wState 0 [] Option.none ["A", "B"]).2.1 = [] :=
  ⟨by decide, by decide,
    @C8_theorem wState 0 [] ["A", "B"] Option.none (by decide) (by decide)⟩

/-- C9: the cap counter is one per-user counter shared by all three weekly
shift types.  If a user already holds 2 weekly turns (in any mix of upgrade
and tier3 turns), then within the week step none of the three weekly
assignments can select them except as the back-to-back last resort (i.e. only
if they are the respective shift type's `last_user`). -/
theorem C9_theorem {st : GenState} {ws : Int} {u : String}
    (h2 : 2 ≤ st.monthly u) :
    ((weekUpgradePick st ws).1 = some u → st.lastUp = some u) ∧
    ((weekT3mPick st ws).1 = some u → st.lastT3m = some u) ∧
    ((weekT3ePick st ws).1 = some u → st.lastT3e = some u) := by
  refine ⟨?_, ?_, ?_⟩
  · intro h
    rw [weekUpgradePick] at h
    exact assign_fst_cap h h2
  · intro h
    rw [weekT3mPick] at h
    have h2m : 2 ≤ (stAfterUpgrade st ws).monthly u :=
      Nat.le_trans h2 (stAfterUpgrade_monthly_le st ws u)
    have hl := assign_fst_cap h h2m
    rw [stAfterUpgrade_lastT3m] at hl
    exact hl
  · intro h
    rw [weekT3ePick] at h
    have h2m : 2 ≤ (stAfterT3m st ws).monthly u :=
      Nat.le_trans (Nat.le_trans h2 (stAfterUpgrade_monthly_le st ws u))
        (stAfterT3m_monthly_le st ws u)
    have hl := assign_fst_cap h h2m
    rw [stAfterT3m_lastT3e, stAfterUpgrade_lastT3e] at hl
    exact hl

/-- C9, witness: a state where "A" already holds 2 weekly turns and is every
type's `last_user`. -/
theorem C9_witness :
    2 ≤ capState.monthly "A" ∧
    (((weekUpgradePick capState 0).1 = some "A" → capState.lastUp = some "A") ∧
     ((weekT3mPick capState 0).1 = some "A" → capState.lastT3m = some "A") ∧
     ((weekT3ePick capState 0).1 = some "A" → capState.lastT3e = some "A")) :=
  ⟨by decide, @C9_theorem capState 0 "A" (by decide)⟩

/-- C10: emergency coverage never consults the unavailable set.  With the
tier2 roster's only user "A" on PTO on day 10, the emergency resolver tags
"A (EMERGENCY)" into the morning slot on a date inside "A"'s unavailable set,
and then — checking only same-day assignment, and for the double not even
that — tags "A (EMERGENCY-DOUBLE)" into the evening slot. -/
theorem C10_theorem :
    (attempt_emergency_coverage emgState Tier.tier2 10 []).schedule =
      [⟨10, Tier.tier2, Slot.morning, "A", Tag.emergency⟩,
       ⟨10, Tier.tier2, Slot.evening, "A", Tag.emergencyDouble⟩] ∧
    isAvailable emgState.pto "A" 10 = false := by
  constructor <;> decide

/-- C4, counterexample: the claim "no shift slot of the month is ever left
unfilled" fails.  In a February-2021 run whose upgrade roster is the single
user "A", with "A" on PTO on Wednesday of week 1, all weekly-assigner paths
fail for week 1 (no last resort exists yet) and the upgrade slot of
2021-02-01 — a slot of the target month — has no assignment at all. -/
theorem C4_counterexample :
    lookupSlot runSoloPto.schedule feb2021 Tier.upgrade Slot.full = Option.none := by
  decide

/-- C4, amended: the no-unfilled-slot guarantee does hold for the daily tier2
slots, which are the only slots routed through the fallback ladder: whenever
the tier2∪tier3 pool is nonempty (and user names are nonempty strings), one
call of the daily assigner leaves both the morning and the evening tier2 slot
of its date filled — in the worst case by an EMERGENCY-DOUBLE-tagged
assignment.  Weekly (upgrade/tier3) slots have no such guarantee. -/
theorem C4_theorem {st : GenState} {date : Int} {users : List String}
    (hpool : st.tier2 ++ st.tier3 ≠ []) (husers : ∀ u ∈ users, u ≠ "") :
    (lookupSlot (assign_daily_shifts_with_fairness st Tier.tier2 date users).schedule
      date Tier.tier2 Slot.morning).isSome = true ∧
    (lookupSlot (assign_daily_shifts_with_fairness st Tier.tier2 date users).schedule
      date Tier.tier2 Slot.evening).isSome = true := by
  rw [assign_daily_shifts_with_fairness]
  split
  next h2 =>
    constructor
    · exact lookupSlot_isSome_of_mem _
        (List.mem_append_right _ (List.mem_cons_self _ _)) rfl rfl rfl
    · exact lookupSlot_isSome_of_mem _
        (List.mem_append_right _ (List.mem_cons_of_mem _ (List.mem_cons_self _ _)))
        rfl rfl rfl
  next h2 =>
    split
    next u hequ =>
      have hu : u ∈ users := by
        have hmem : u ∈ users.filter fun v =>
            isAvailable st.pto v date && !((st.daily date).contains v) := by
          rw [hequ]
          exact List.mem_cons_self _ _
        exact (List.mem_filter.mp hmem).1
      have hne : (u == "") = false := beq_eq_false_iff_ne.mpr (husers u hu)
      constructor
      · apply fallback_keeps_slot
        exact lookupSlot_isSome_of_mem ⟨date, Tier.tier2, Slot.morning, u, Tag.none⟩
          (List.mem_append_right _ (List.mem_cons_self _ _)) rfl rfl rfl
      · exact fallback_slot_filled hne
    next => exact emergency_slots_filled st date users hpool

/-- C4, witness: the sole tier2 user is on PTO, yet both slots of the day end
up filled (via the emergency ladder). -/
theorem C4_witness :
    (emgState.tier2 ++ emgState.tier3 ≠ []) ∧ (∀ u ∈ ["A"], u ≠ "") ∧
    (lookupSlot (assign_daily_shifts_with_fairness emgState Tier.tier2 10 ["A"]).schedule
      10 Tier.tier2 Slot.morning).isSome = true ∧
    (lookupSlot (assign_daily_shifts_with_fairness emgState Tier.tier2 10 ["A"]).schedule
      10 Tier.tier2 Slot.evening).isSome = true :=
  ⟨by decide, by decide,
    (@C4_theorem emgState 10 ["A"] (by decide) (by decide)).1,
    (@C4_theorem emgState 10 ["A"] (by decide) (by decide)).2⟩

/-- C5: the daily assigner with at least 2 eligible users.  The two entries
written are untagged morning/evening assignments of the first two elements of
the eligible pool stable-sorted ascending by `loadBalanceKey` (that is,
`cumulativeCount + monthCount`); the sort is a permutation of the eligible
pool, is sorted by the key, breaks ties by stable roster order (candidates of
equal key keep their original relative order), and the two chosen users are
distinct when the roster has no duplicates. -/
theorem C5_theorem (st : GenState) (tier : Tier) (date : Int)
    (users elig sorted : List String)
    (helig : elig = users.filter fun u =>
      isAvailable st.pto u date && !((st.daily date).contains u))
    (hsorted : sorted = sortByKey (fun u => st.cumulative u + st.shiftCounts u) elig)
    (h2 : 2 ≤ elig.length) (hnd : users.Nodup) :
    (assign_daily_shifts_with_fairness st tier date users).schedule =
      st.schedule ++
        [⟨date, tier, Slot.morning, sorted.getD 0 "", Tag.none⟩,
         ⟨date, tier, Slot.evening, sorted.getD 1 "", Tag.none⟩] ∧
    sorted.Perm elig ∧
    sorted.Pairwise (fun a b => loadBalanceKey st a ≤ loadBalanceKey st b) ∧
    (∀ c, sorted.filter (fun u => loadBalanceKey st u == c) =
      elig.filter (fun u => loadBalanceKey st u == c)) ∧
    sorted.getD 0 "" ≠ sorted.getD 1 "" := by
  subst helig hsorted
  have hperm := sortByKey_perm (fun u => st.cumulative u + st.shiftCounts u)
    (users.filter fun u => isAvailable st.pto u date && !((st.daily date).contains u))
  refine ⟨?_, hperm, sortByKey_sorted _ _, fun c => sortByKey_filter_key _ _ c, ?_⟩
  · rw [assign_daily_shifts_with_fairness]
    split
    next => rfl
    next hn2 => exact absurd h2 hn2
  · have hnodup : (sortByKey (fun u => st.cumulative u + st.shiftCounts u)
        (users.filter fun u => isAvailable st.pto u date &&
          !((st.daily date).contains u))).Nodup :=
      hperm.symm.nodup (hnd.filter _)
    have hlen := hperm.length_eq
    have h0 : 0 < (sortByKey (fun u => st.cumulative u + st.shiftCounts u)
        (users.filter fun u => isAvailable st.pto u date &&
          !((st.daily date).contains u))).length := by omega
    have h1 : 1 < (sortByKey (fun u => st.cumulative u + st.shiftCounts u)
        (users.filter fun u => isAvailable st.pto u date &&
          !((st.daily date).contains u))).length := by omega
    rw [List.getD_eq_getElem _ "" h0, List.getD_eq_getElem _ "" h1]
    intro heq
    have h01 := (hnodup.getElem_inj_iff).mp heq
    cases h01

/-- C5, witness: two tier2 users "B" and "C" with equal keys; the stable sort
keeps roster order, "B" gets morning, "C" evening. -/
theorem C5_witness :
    ((["B", "C"] : List String) = (["B", "C"] : List String).filter fun u =>
      isAvailable dState.pto u 5 && !((dState.daily 5).contains u)) ∧
    ((["B", "C"] : List String) =
      sortByKey (fun u => dState.cumulative u + dState.shiftCounts u) ["B", "C"]) ∧
    ((assign_daily_shifts_with_fairness dState Tier.tier2 5 ["B", "C"]).schedule =
      dState.schedule ++
        [⟨5, Tier.tier2, Slot.morning, (["B", "C"] : List String).getD 0 "", Tag.none⟩,
         ⟨5, Tier.tier2, Slot.evening, (["B", "C"] : List String).getD 1 "", Tag.none⟩] ∧
      (["B", "C"] : List String).Perm ["B", "C"] ∧
      (["B", "C"] : List String).Pairwise
        (fun a b => loadBalanceKey dState a ≤ loadBalanceKey dState b) ∧
      (∀ c, (["B", "C"] : List String).filter (fun u => loadBalanceKey dState u == c) =
        (["B", "C"] : List String).filter (fun u => loadBalanceKey dState u == c)) ∧
      (["B", "C"] : List String).getD 0 "" ≠ (["B", "C"] : List String).getD 1 "") :=
  ⟨by decide, by decide,
    C5_theorem dState Tier.tier2 5 ["B", "C"] ["B", "C"] ["B", "C"]
      (by decide) (by decide) (by decide) (by decide)⟩

/-- C6, counterexample: the cross-tier resolver does not scan in
`loadBalanceKey` order.  In `fbState`, both candidates "Y" and "Z" are
available and unassigned, "Z" has the strictly smaller `loadBalanceKey`
(2 versus 11), yet the resolver assigns "Y" — because the code sorts by the
current-month `shift_counts` alone (1 versus 2), not by
`cumulativeCount + monthCount`. -/
theorem C6_counterexample :
    (attempt_fallback_coverage fbState Tier.tier2 5 Slot.evening ["X"] "X").schedule =
      [⟨5, Tier.tier2, Slot.evening, "Y", Tag.none⟩] ∧
    "Z" ∈ crossTierCandidates fbState ["X"] ∧
    (isAvailable fbState.pto "Z" 5 && !((fbState.daily 5).contains "Z")) = true ∧
    loadBalanceKey fbState "Z" < loadBalanceKey fbState "Y" := by
  refine ⟨?_, ?_, ?_, ?_⟩ <;> decide

/-- C6, amended: for a non-upgrade tier, when the cross-tier scan finds a
candidate it picks a user from the union of tier2 and tier3 minus the tier's
own roster who is available and unassigned that day and whose current-month
shift count (`self.shift_counts`, not `loadBalanceKey`) is minimal among all
such candidates; the assignment is written untagged and a fallback event with
reason "cross-tier coverage" is appended. -/
theorem C6_theorem {st : GenState} {tier : Tier} {date : Int} {shift : Slot}
    {users : List String} {already u : String} (htier : ¬(tier = Tier.upgrade))
    (h : crossTierPick st date users = some u) :
    u ∈ crossTierCandidates st users ∧
    (isAvailable st.pto u date && !((st.daily date).contains u)) = true ∧
    (∀ v ∈ crossTierCandidates st users,
      (isAvailable st.pto v date && !((st.daily date).contains v)) = true →
        st.shiftCounts u ≤ st.shiftCounts v) ∧
    (attempt_fallback_coverage st tier date shift users already).schedule =
      st.schedule ++ [⟨date, tier, shift, u, Tag.none⟩] ∧
    (attempt_fallback_coverage st tier date shift users already).fallbackLog =
      st.fallbackLog ++ [⟨date, tier, shift, u, Reason.crossTier⟩] := by
  have hmem : u ∈ sortByKey st.shiftCounts (crossTierCandidates st users) :=
    List.mem_of_find?_eq_some h
  have hpred := List.find?_some h
  refine ⟨(sortByKey_perm _ _).mem_iff.mp hmem, hpred, ?_, ?_, ?_⟩
  · intro v hv hpv
    exact find?_sorted_min st.shiftCounts _ _ u (sortByKey_sorted _ _) h v
      ((sortByKey_perm _ _).mem_iff.mpr hv) hpv
  · rw [attempt_fallback_coverage, if_neg htier, h]
  · rw [attempt_fallback_coverage, if_neg htier, h]

/-- C6, witness: the amended rule at the counterexample state — "Y" is indeed
the minimal-month-count available candidate there. -/
theorem C6_witness :
    ¬(Tier.tier2 = Tier.upgrade) ∧ crossTierPick fbState 5 ["X"] = some "Y" ∧
    ("Y" ∈ crossTierCandidates fbState ["X"] ∧
     (isAvailable fbState.pto "Y" 5 && !((fbState.daily 5).contains "Y")) = true ∧
     (∀ v ∈ crossTierCandidates fbState ["X"],
       (isAvailable fbState.pto v 5 && !((fbState.daily 5).contains v)) = true →
         fbState.shiftCounts "Y" ≤ fbState.shiftCounts v) ∧
     (attempt_fallback_coverage fbState Tier.tier2 5 Slot.evening ["X"] "X").schedule =
       fbState.schedule ++ [⟨5, Tier.tier2, Slot.evening, "Y", Tag.none⟩] ∧
     (attempt_fallback_coverage fbState Tier.tier2 5 Slot.evening ["X"] "X").fallbackLog =
       fbState.fallbackLog ++ [⟨5, Tier.tier2, Slot.evening, "Y", Reason.crossTier⟩]) :=
  ⟨by decide, by decide,
    @C6_theorem fbState Tier.tier2 5 Slot.evening ["X"] "X" "Y" (by decide) (by decide)⟩

/-- C7, counterexample: the claim that tagged assignments produce no
PTO-violation finding fails.  A schedule whose only cell is an
EMERGENCY-tagged assignment of "A" on "A"'s PTO day yields a PTO-violation
finding for it, because the validator strips tags before the check. -/
theorem C7_counterexample :
    (⟨"A", 10, Tier.tier2, Slot.morning⟩ : VEntry) ∈
      pto_violation_findings ptoA10 taggedSched ∧
    (∀ e ∈ taggedSched, e.tag ≠ Tag.none) := by
  constructor <;> decide

/-- C7, amended: the validator reports a critical PTO finding for an
assignment exactly when the tag-stripped user is unavailable on the
assignment's date — for every assignment, tagged or not. -/
theorem C7_theorem (pto : String → List Int) (sched : List Entry) (e : Entry)
    (he : e ∈ sched) :
    ((⟨e.user, e.date, e.tier, e.slot⟩ : VEntry) ∈ pto_violation_findings pto sched ↔
      (pto e.user).contains e.date = true) := by
  rw [mem_pto_violation_findings]
  constructor
  · rintro ⟨_, hc⟩
    exact hc
  · intro hc
    exact ⟨⟨e, he, rfl, rfl, rfl, rfl⟩, hc⟩

/-- C7, witness: the amended rule applied to the tagged one-cell schedule. -/
theorem C7_witness :
    ((⟨10, Tier.tier2, Slot.morning, "A", Tag.emergency⟩ : Entry) ∈ taggedSched) ∧
    ((⟨"A", 10, Tier.tier2, Slot.morning⟩ : VEntry) ∈
        pto_violation_findings ptoA10 taggedSched ↔
      (ptoA10 "A").contains 10 = true) :=
  ⟨by decide,
    C7_theorem ptoA10 taggedSched ⟨10, Tier.tier2, Slot.morning, "A", Tag.emergency⟩
      (by decide)⟩

end OnCall
